import Mathlib

/-!
Verification of the two geometric utility functions in
`1_geometry/geometry_functions.py`:

* `create_wiggly_line p0 p1 n amp` — a sinusoidally perturbed sampled line
  between two points;
* `total_bearing_change_planar` — the per-line sum of absolute bearing
  changes over a collection of line strings.

Coordinates are modelled as real numbers.  The numpy mask/array pipeline of
the aggregator is embedded over lists: flattened coordinates carry their
parent row position, consecutive-pair masks become filters, and the pandas
group-by / label-aligned series assembly is modelled as a fold of
label-based updates over the output rows.  The failure modes of the two
external collaborators are modelled as well: the geometry library's line
constructor rejects a single-coordinate array, and the tabular library's
list-like label assignment fails when its row selection cannot be aligned
with the assigned values (a summed label duplicated in the index).
-/

namespace Geospatial

open Real

/-- A planar point, a pair of real coordinates (x, y). -/
abbrev Point : Type := ℝ × ℝ

noncomputable section

open scoped Classical

/-- Python / numpy floating modulus on reals: `a % b = a - b * ⌊a / b⌋`
(result has the sign of `b`). -/
def fmod (a b : ℝ) : ℝ := a - b * ⌊a / b⌋

/-- numpy `degrees`: radians to degrees. -/
def degrees (r : ℝ) : ℝ := r * 180 / π

/-- numpy `arctan2 y x`: the angle of the point `(x, y)`, in `(-π, π]`. -/
def arctan2 (y x : ℝ) : ℝ := Complex.arg ⟨x, y⟩

/-- Bearing of a displacement `(dx, dy)`, clockwise from North in `[0, 360)`:
`(degrees (arctan2 dx dy) + 360) % 360` as in the source. -/
def bearing (dx dy : ℝ) : ℝ := fmod (degrees (arctan2 dx dy) + 360) 360

/-- Smallest absolute angle difference between two bearings, from the source:
`abs (((b1 - b0 + 180) % 360) - 180)`. -/
def turn (b0 b1 : ℝ) : ℝ := |fmod (b1 - b0 + 180) 360 - 180|

/-- numpy `linspace 0 1 n`: `n` uniformly spaced samples of `[0, 1]`,
both endpoints included; the `k`-th sample is `k / (n - 1)`
(`n = 1` yields the single sample `0`). -/
def linspace01 (n : ℕ) : List ℝ :=
  (List.range n).map (fun (k : ℕ) => (k : ℝ) / ((n : ℝ) - 1))

/-- The generator `create_wiggly_line(p0, p1, n, amp)`: base points linearly
interpolated between `p0` and `p1` at the `linspace01 n` parameters, offset
along the left-hand normal by `amp * sin (2 * π * t * 3)`.  Raises
(`Except.error`) on the source's zero-length check `L == 0`; the final
`LineString` construction (an external geometry collaborator) accepts 0 or
more than 1 coordinates and rejects a single-coordinate array, so a
one-point result also raises. -/
def create_wiggly_line (p0 p1 : Point) (n : ℕ) (amp : ℝ) :
    Except String (List Point) :=
  let dx := p1.1 - p0.1
  let dy := p1.2 - p0.2
  let L := Real.sqrt (dx ^ 2 + dy ^ 2)
  if L = 0 then Except.error "Points must be different"
  else
    let ux := dx / L
    let uy := dy / L
    let nx := -uy
    let ny := ux
    let pts := (linspace01 n).map (fun t =>
      (p0.1 + t * dx + amp * Real.sin (2 * π * t * 3) * nx,
       p0.2 + t * dy + amp * Real.sin (2 * π * t * 3) * ny))
    if pts.length = 1 then
      Except.error "point array must contain 0 or >1 elements"
    else Except.ok pts

/-- Modelled from the spec: the point the specification's generator contract
promises at parameter `t`, namely `p0 + t*(p1-p0) + amp*sin(2*π*t*3)*(nx,ny)`
with `(nx, ny) = (-uy, ux)` the left-hand perpendicular of the unit
direction `(ux, uy)`. -/
def specPoint (p0 p1 : Point) (amp t : ℝ) : Point :=
  let L := Real.sqrt ((p1.1 - p0.1) ^ 2 + (p1.2 - p0.2) ^ 2)
  let ux := (p1.1 - p0.1) / L
  let uy := (p1.2 - p0.2) / L
  (p0.1 + t * (p1.1 - p0.1) + amp * Real.sin (2 * π * t * 3) * (-uy),
   p0.2 + t * (p1.2 - p0.2) + amp * Real.sin (2 * π * t * 3) * ux)

/-- A directed segment of the flattened coordinate array, with the row
position (`parent_ix`) of the line it came from. -/
structure Seg where
  c0 : Point
  c1 : Point
  parent : ℕ

/-- Segment x-displacement. -/
def Seg.dx (s : Seg) : ℝ := s.c1.1 - s.c0.1

/-- Segment y-displacement. -/
def Seg.dy (s : Seg) : ℝ := s.c1.2 - s.c0.2

/-- shapely `get_coordinates(..., return_index=True)` starting at row `i`:
every vertex of every line in order, tagged with its parent row position. -/
def getCoordinatesAux (i : ℕ) : List (List Point) → List (Point × ℕ)
  | [] => []
  | g :: gs => g.map (fun p => (p, i)) ++ getCoordinatesAux (i + 1) gs

/-- shapely `get_coordinates(..., return_index=True)`. -/
def getCoordinates (geoms : List (List Point)) : List (Point × ℕ) :=
  getCoordinatesAux 0 geoms

/-- Adjacent pairs of a list, numpy's `xs[:-1]` zipped with `xs[1:]`. -/
def consecutivePairs {α : Type} : List α → List (α × α)
  | a :: b :: rest => (a, b) :: consecutivePairs (b :: rest)
  | _ => []

/-- The `same_geom_pair` mask applied to consecutive flattened coordinates:
keep a pair as a segment only when both vertices share a parent row. -/
def sameParentPairs (cs : List (Point × ℕ)) : List Seg :=
  (consecutivePairs cs).filterMap (fun pq =>
    if pq.1.2 = pq.2.2 then some ⟨pq.1.1, pq.2.1, pq.1.2⟩ else none)

/-- Segments of the collection: consecutive flattened coordinate pairs that
stay in the same geometry. -/
def rawSegs (geoms : List (List Point)) : List Seg :=
  sameParentPairs (getCoordinates geoms)

/-- The `nz` mask: drop zero-length segments (`dx != 0 | dy != 0`). -/
def nzSegs (geoms : List (List Point)) : List Seg :=
  (rawSegs geoms).filterMap (fun s =>
    if s.dx ≠ 0 ∨ s.dy ≠ 0 then some s else none)

/-- The `same_geom_adjacent_segment` mask with the turn computation: a turn
for each adjacent pair of surviving segments in the same geometry, tagged
with the parent row (`seg_parent[1:]`). -/
def turnCond (st : Seg × Seg) : Option (ℝ × ℕ) :=
  if st.1.parent = st.2.parent then
    some (turn (bearing st.1.dx st.1.dy) (bearing st.2.dx st.2.dy), st.2.parent)
  else none

/-- All turns of the collection with their parent row positions. -/
def turnsWithParent (geoms : List (List Point)) : List (ℝ × ℕ) :=
  (consecutivePairs (nzSegs geoms)).filterMap turnCond

/-- pandas `groupby(parents).sum()` value at key `i`: the sum of the turns
whose parent row is `i`. -/
def sumForParent (ts : List (ℝ × ℕ)) (i : ℕ) : ℝ :=
  ((ts.filter (fun t => t.2 = i)).map Prod.fst).sum

/-- pandas `groupby(parents).sum().index`: the distinct parent rows that
produced at least one turn, in ascending order (`m` bounds the row count). -/
def groupedParents (m : ℕ) (ts : List (ℝ × ℕ)) : List ℕ :=
  (List.range m).filter (fun i => ts.any (fun t => t.2 = i))

/-- pandas label-based assignment `out.loc[lab] = v`: every row whose
identifier equals `lab` receives the value `v`. -/
def locUpdate (out : List (ℕ × ℝ)) (lab : ℕ) (v : ℝ) : List (ℕ × ℝ) :=
  out.map (fun e => if e.1 = lab then (e.1, v) else e)

/-- A GeoDataFrame of line strings: a row identifier (index label) and a
geometry per row. -/
structure GeoDataFrame where
  index : List ℕ
  geoms : List (List Point)
  hlen : index.length = geoms.length

/-- The aggregator `total_bearing_change_planar`: sum of absolute bearing
changes along each line string, returned as an identifier-labelled series
aligned to the input rows.  The source's four early-exit branches each
return the all-zero series `pd.Series(0.0, index=gdf.index)`; the final
branch assembles the same series and overwrites it with the grouped sums
through the label-based assignment `out.loc[labels] = s.values`.  That
list-like assignment (a tabular collaborator) selects every row whose
identifier matches an assigned label, per label occurrence; when the
selection length differs from the number of grouped values — i.e. when a
label receiving a sum is duplicated in the index — the assignment cannot
align them and the collaborator fails instead of assigning per line. -/
def total_bearing_change_planar (gdf : GeoDataFrame) :
    Except String (List (ℕ × ℝ)) :=
  let base := gdf.index.map (fun lab => (lab, (0 : ℝ)))
  if (getCoordinates gdf.geoms).length < 2 then Except.ok base
  else if rawSegs gdf.geoms = [] then Except.ok base
  else if nzSegs gdf.geoms = [] then Except.ok base
  else if turnsWithParent gdf.geoms = [] then Except.ok base
  else
    let ts := turnsWithParent gdf.geoms
    let ps := groupedParents gdf.geoms.length ts
    if (ps.map (fun i => gdf.index.count (gdf.index.getD i 0))).sum = ps.length
    then
      Except.ok (ps.foldl
        (fun out i => locUpdate out (gdf.index.getD i 0) (sumForParent ts i))
        base)
    else Except.error
      "cannot set using a list-like indexer with a different length than the value"

/-- The label-aligned series the aggregator assembles on its success
path. -/
def assembled (gdf : GeoDataFrame) : List (ℕ × ℝ) :=
  (groupedParents gdf.geoms.length (turnsWithParent gdf.geoms)).foldl
    (fun out i => locUpdate out (gdf.index.getD i 0)
      (sumForParent (turnsWithParent gdf.geoms) i))
    (gdf.index.map (fun lab => (lab, (0 : ℝ))))

/-! ### Basic facts about the real modulus and the turn formula -/

/-- Computation rule for `fmod` when the quotient is known. -/
theorem fmod_eq_of_bounds (a b : ℝ) (k : ℤ) (hb : 0 < b)
    (h1 : (k : ℝ) * b ≤ a) (h2 : a < ((k : ℝ) + 1) * b) :
    fmod a b = a - b * k := by
  have hfl : ⌊a / b⌋ = k := by
    rw [Int.floor_eq_iff]
    constructor
    · rw [le_div_iff₀ hb]; exact h1
    · rw [div_lt_iff₀ hb]; exact h2
  rw [fmod, hfl]

/-- The turn between two in-range bearings is their smallest unsigned
angular difference. -/
theorem turn_eq_min (b1 b2 : ℝ) (h1 : 0 ≤ b1) (h2 : b1 < 360)
    (h3 : 0 ≤ b2) (h4 : b2 < 360) :
    turn b1 b2 = min |b2 - b1| (360 - |b2 - b1|) := by
  have hd1 : -360 < b2 - b1 := by linarith
  have hd2 : b2 - b1 < 360 := by linarith
  rcases lt_or_le (b2 - b1) (-180) with hc | hc
  · have hf : fmod (b2 - b1 + 180) 360 = (b2 - b1 + 180) - 360 * (-1 : ℤ) := by
      apply fmod_eq_of_bounds _ _ (-1) (by norm_num)
      · push_cast; linarith
      · push_cast; linarith
    rw [turn, hf]
    rw [abs_of_nonpos (by linarith : b2 - b1 ≤ 0)]
    rw [min_eq_right (by linarith)]
    rw [abs_of_nonneg (by push_cast; linarith)]
    push_cast
    ring
  · rcases lt_or_le (b2 - b1) 180 with hc2 | hc2
    · have hf : fmod (b2 - b1 + 180) 360 = (b2 - b1 + 180) - 360 * (0 : ℤ) := by
        apply fmod_eq_of_bounds _ _ 0 (by norm_num)
        · push_cast; linarith
        · push_cast; linarith
      rw [turn, hf]
      have : b2 - b1 + 180 - 360 * ((0 : ℤ) : ℝ) - 180 = b2 - b1 := by
        push_cast; ring
      rw [this]
      rcases le_total (b2 - b1) 0 with hs | hs
      · rw [abs_of_nonpos hs, min_eq_left (by linarith)]
      · rw [abs_of_nonneg hs, min_eq_left (by linarith)]
    · have hf : fmod (b2 - b1 + 180) 360 = (b2 - b1 + 180) - 360 * (1 : ℤ) := by
        apply fmod_eq_of_bounds _ _ 1 (by norm_num)
        · push_cast; linarith
        · push_cast; linarith
      rw [turn, hf]
      rw [abs_of_nonneg (by linarith : 0 ≤ b2 - b1)]
      rw [min_eq_right (by linarith)]
      rw [abs_of_nonpos (by push_cast; linarith)]
      push_cast
      ring

/-- The turn between two in-range bearings lies in `[0, 180]`. -/
theorem turn_bounds (b1 b2 : ℝ) (h1 : 0 ≤ b1) (h2 : b1 < 360)
    (h3 : 0 ≤ b2) (h4 : b2 < 360) :
    0 ≤ turn b1 b2 ∧ turn b1 b2 ≤ 180 := by
  rw [turn_eq_min b1 b2 h1 h2 h3 h4]
  have ha : 0 ≤ |b2 - b1| := abs_nonneg _
  have hb : |b2 - b1| < 360 := by
    rw [abs_lt]; constructor <;> linarith
  constructor
  · rcases le_total |b2 - b1| (360 - |b2 - b1|) with hm | hm
    · rw [min_eq_left hm]; linarith
    · rw [min_eq_right hm]; linarith
  · rcases le_total |b2 - b1| 180 with hm | hm
    · exact le_trans (min_le_left _ _) hm
    · exact le_trans (min_le_right _ _) (by linarith)

/-- C1: for bearings `b1`, `b2` in `[0, 360)`, the aggregator's turn
`abs (((b2 - b1 + 180) % 360) - 180)` lies in `[0, 180]` and equals the
smallest unsigned angular difference between the two bearings, handling
wraparound at the 0°/360° boundary. -/
theorem C1_turn_is_smallest_angle (b1 b2 : ℝ) (h1 : 0 ≤ b1) (h2 : b1 < 360)
    (h3 : 0 ≤ b2) (h4 : b2 < 360) :
    (0 ≤ turn b1 b2 ∧ turn b1 b2 ≤ 180) ∧
      turn b1 b2 = min |b2 - b1| (360 - |b2 - b1|) :=
  ⟨turn_bounds b1 b2 h1 h2 h3 h4, turn_eq_min b1 b2 h1 h2 h3 h4⟩

/-- C1 witness: bearings 350° then 10° yield a turn of 20.0, not 340.0. -/
theorem C1_turn_witness : (0 : ℝ) ≤ 350 ∧ (350 : ℝ) < 360 ∧ turn 350 10 = 20 := by
  refine ⟨by norm_num, by norm_num, ?_⟩
  have h := (C1_turn_is_smallest_angle 350 10 (by norm_num) (by norm_num)
    (by norm_num) (by norm_num)).2
  rw [h, show |(10 : ℝ) - 350| = 340 by rw [abs_of_nonpos] <;> norm_num,
    min_eq_right (by norm_num : (360 : ℝ) - 340 ≤ 340)]
  norm_num

/-! ### The generator -/

/-- The hypotenuse length is zero exactly when the two points coincide. -/
theorem sqrt_dist_eq_zero_iff (p0 p1 : Point) :
    Real.sqrt ((p1.1 - p0.1) ^ 2 + (p1.2 - p0.2) ^ 2) = 0 ↔ p0 = p1 := by
  rw [Real.sqrt_eq_zero (by positivity)]
  constructor
  · intro h
    have h1 : p1.1 - p0.1 = 0 := by
      nlinarith [sq_nonneg (p1.1 - p0.1), sq_nonneg (p1.2 - p0.2)]
    have h2 : p1.2 - p0.2 = 0 := by
      nlinarith [sq_nonneg (p1.1 - p0.1), sq_nonneg (p1.2 - p0.2)]
    rw [Prod.ext_iff]
    constructor
    · linarith
    · linarith
  · intro h
    rw [h]
    ring

/-- Number of samples. -/
theorem linspace01_length (n : ℕ) : (linspace01 n).length = n := by
  rw [linspace01, List.length_map, List.length_range]

/-- On distinct endpoints and `n ≠ 1` the generator succeeds and returns
the offset points sampled at the `linspace01 n` parameters. -/
theorem create_eq_ok (p0 p1 : Point) (n : ℕ) (amp : ℝ) (h : p0 ≠ p1)
    (hn : n ≠ 1) :
    create_wiggly_line p0 p1 n amp =
      Except.ok ((linspace01 n).map (specPoint p0 p1 amp)) := by
  have hL : ¬ Real.sqrt ((p1.1 - p0.1) ^ 2 + (p1.2 - p0.2) ^ 2) = 0 := by
    rw [sqrt_dist_eq_zero_iff]
    exact h
  simp only [create_wiggly_line]
  rw [if_neg hL, if_neg (by rw [List.length_map, linspace01_length]; exact hn)]
  rfl

/-- On distinct endpoints with `n = 1` the generator builds a single
coordinate and the line construction rejects it. -/
theorem create_single_errors (p0 p1 : Point) (amp : ℝ) (h : p0 ≠ p1) :
    create_wiggly_line p0 p1 1 amp =
      Except.error "point array must contain 0 or >1 elements" := by
  have hL : ¬ Real.sqrt ((p1.1 - p0.1) ^ 2 + (p1.2 - p0.2) ^ 2) = 0 := by
    rw [sqrt_dist_eq_zero_iff]
    exact h
  simp only [create_wiggly_line]
  rw [if_neg hL, if_pos (by rw [List.length_map, linspace01_length])]

/-- The `k`-th sample is `k / (n - 1)`. -/
theorem linspace01_getElem? (n k : ℕ) (hk : k < n) :
    (linspace01 n)[k]? = some ((k : ℝ) / ((n : ℝ) - 1)) := by
  simp [linspace01, List.getElem?_map, List.getElem?_range hk]

/-- The two samples of `linspace01 2`. -/
theorem linspace01_two : linspace01 2 = [0, 1] := by
  rw [linspace01, show List.range 2 = [0, 1] from rfl]
  norm_num

/-- The sinusoid argument vanishes at `t = 0`. -/
theorem sin_arg_zero : Real.sin (2 * π * 0 * 3) = 0 := by
  norm_num

/-- The sinusoid completes whole cycles, so it vanishes at `t = 1`. -/
theorem sin_arg_one : Real.sin (2 * π * 1 * 3) = 0 := by
  have h : 2 * π * 1 * 3 = (6 : ℕ) * π := by push_cast; ring
  rw [h, Real.sin_nat_mul_pi]

/-- The offset point at parameter `0` is `p0` itself. -/
theorem specPoint_zero (p0 p1 : Point) (amp : ℝ) :
    specPoint p0 p1 amp 0 = p0 := by
  simp [specPoint, sin_arg_zero]

/-- The offset point at parameter `1` is `p1` itself. -/
theorem specPoint_one (p0 p1 : Point) (amp : ℝ) :
    specPoint p0 p1 amp 1 = p1 := by
  unfold specPoint
  rw [sin_arg_one, Prod.ext_iff]
  constructor <;> (simp; try ring)

/-- C2: for distinct endpoints and `n ≥ 2` the generator returns exactly `n`
points; the `k`-th point is `p0 + t_k (p1 - p0)` offset along the left-hand
perpendicular of the unit direction by `amp * sin (2 π t_k 3)`, with the
`t_k = k / (n - 1)` uniformly spaced over `[0, 1]` including both endpoints
and emitted in increasing order. -/
theorem C2_generator_formula (p0 p1 : Point) (n : ℕ) (amp : ℝ)
    (h : p0 ≠ p1) (hn : 2 ≤ n) :
    ∃ pts, create_wiggly_line p0 p1 n amp = Except.ok pts ∧
      pts.length = n ∧
      (∀ k, k < n →
        pts[k]? = some (specPoint p0 p1 amp ((k : ℝ) / ((n : ℝ) - 1)))) ∧
      (0 : ℝ) / ((n : ℝ) - 1) = 0 ∧
      ((n - 1 : ℕ) : ℝ) / ((n : ℝ) - 1) = 1 ∧
      (∀ k : ℕ, ((k + 1 : ℕ) : ℝ) / ((n : ℝ) - 1) - (k : ℝ) / ((n : ℝ) - 1)
          = 1 / ((n : ℝ) - 1)) ∧
      (∀ k l : ℕ, k < l → (k : ℝ) / ((n : ℝ) - 1) < (l : ℝ) / ((n : ℝ) - 1)) := by
  have hden : (0 : ℝ) < (n : ℝ) - 1 := by
    have : (2 : ℝ) ≤ (n : ℝ) := by exact_mod_cast hn
    linarith
  refine ⟨_, create_eq_ok p0 p1 n amp h (by omega), ?_, ?_, ?_, ?_, ?_, ?_⟩
  · rw [List.length_map, linspace01_length]
  · intro k hk
    rw [List.getElem?_map, linspace01_getElem? n k hk]
    rfl
  · exact zero_div _
  · rw [Nat.cast_sub (by omega : 1 ≤ n)]
    push_cast
    exact div_self hden.ne'
  · intro k
    push_cast
    field_simp
  · intro k l hkl
    have hkl' : (k : ℝ) < (l : ℝ) := by exact_mod_cast hkl
    gcongr

/-- C2 witness: the theorem instantiated at `p0 = (0,0)`, `p1 = (1,0)`,
`n = 2`, `amp = 5`. -/
theorem C2_generator_witness :
    ((0, 0) : Point) ≠ (1, 0) ∧ 2 ≤ 2 ∧
      (∃ pts, create_wiggly_line (0, 0) (1, 0) 2 5 = Except.ok pts ∧
        pts.length = 2 ∧
        pts[0]? = some (specPoint (0, 0) (1, 0) 5 ((0 : ℝ) / ((2 : ℝ) - 1))) ∧
        pts[1]? = some (specPoint (0, 0) (1, 0) 5 ((1 : ℝ) / ((2 : ℝ) - 1)))) := by
  have hne : ((0, 0) : Point) ≠ (1, 0) := by
    simp [Prod.ext_iff]
  obtain ⟨pts, h1, h2, h3, -⟩ :=
    C2_generator_formula (0, 0) (1, 0) 2 5 hne (le_refl 2)
  refine ⟨hne, le_refl 2, pts, h1, h2, ?_, ?_⟩
  · have := h3 0 (by norm_num)
    simpa using this
  · have := h3 1 (by norm_num)
    simpa using this

/-- C4 counterexample: the zero-distance error message is "Points must be
different" (capital P), not "points must be different"; and for the
distinct endpoints `(0,0)`, `(1,0)` with `n = 1` the generator raises the
single-coordinate line construction error, so the zero-distance error is
not the only one it raises. -/
theorem C4_message_counterexample :
    (create_wiggly_line (0, 0) (0, 0) 100 5 =
        Except.error "Points must be different" ∧
      "Points must be different" ≠ "points must be different") ∧
    (((0, 0) : Point) ≠ (1, 0) ∧
      create_wiggly_line (0, 0) (1, 0) 1 5 =
        Except.error "point array must contain 0 or >1 elements") := by
  refine ⟨⟨?_, by decide⟩, ?_, ?_⟩
  · simp only [create_wiggly_line]
    rw [if_pos (by norm_num)]
  · simp [Prod.ext_iff]
  · exact create_single_errors (0, 0) (1, 0) 5 (by simp [Prod.ext_iff])

/-- C4 amended: the generator fails with message "Points must be different"
exactly when the Euclidean distance between `p0` and `p1` is zero; for
distinct endpoints it fails with the single-coordinate line construction
error when `n = 1`, and succeeds for every other `n`.  These are the only
two errors it produces. -/
theorem C4_error_iff (p0 p1 : Point) (n : ℕ) (amp : ℝ) :
    (create_wiggly_line p0 p1 n amp = Except.error "Points must be different" ↔
      Real.sqrt ((p1.1 - p0.1) ^ 2 + (p1.2 - p0.2) ^ 2) = 0) ∧
    (p0 ≠ p1 → n = 1 →
      create_wiggly_line p0 p1 n amp =
        Except.error "point array must contain 0 or >1 elements") ∧
    (p0 ≠ p1 → n ≠ 1 →
      ∃ pts, create_wiggly_line p0 p1 n amp = Except.ok pts) := by
  refine ⟨⟨?_, ?_⟩, ?_, ?_⟩
  · intro h
    by_contra hL
    have hne : p0 ≠ p1 := fun he => hL ((sqrt_dist_eq_zero_iff p0 p1).mpr he)
    rcases eq_or_ne n 1 with h1 | h1
    · rw [h1, create_single_errors p0 p1 amp hne] at h
      simp only [Except.error.injEq] at h
      exact absurd h (by decide)
    · rw [create_eq_ok p0 p1 n amp hne h1] at h
      exact absurd h (by simp)
  · intro hL
    simp only [create_wiggly_line]
    rw [if_pos hL]
  · intro hne h1
    rw [h1]
    exact create_single_errors p0 p1 amp hne
  · intro hne h1
    exact ⟨_, create_eq_ok p0 p1 n amp hne h1⟩

/-- C4 witness: on the distinct pair `(0,0)`, `(1,0)` with `n = 3` the
generator succeeds, and with `n = 1` it raises the construction error. -/
theorem C4_error_witness :
    ((0, 0) : Point) ≠ (1, 0) ∧ (3 : ℕ) ≠ 1 ∧
      (∃ pts, create_wiggly_line (0, 0) (1, 0) 3 5 = Except.ok pts) ∧
      create_wiggly_line (0, 0) (1, 0) 1 5 =
        Except.error "point array must contain 0 or >1 elements" := by
  have hne : ((0, 0) : Point) ≠ (1, 0) := by
    simp [Prod.ext_iff]
  exact ⟨hne, by norm_num, (C4_error_iff (0, 0) (1, 0) 3 5).2.2 hne (by norm_num),
    (C4_error_iff (0, 0) (1, 0) 1 5).2.1 hne rfl⟩

/-- C7 counterexample: with `p0 = (0,0)`, `p1 = (1,0)`, `n = 2` and the
nonzero amplitude `5`, the generated points are exactly `p0` and `p1`: the
sinusoid completes whole cycles, so the offset vanishes at `t = 0` and
`t = 1` and the endpoints are not displaced. -/
theorem C7_endpoint_counterexample :
    create_wiggly_line (0, 0) (1, 0) 2 5 = Except.ok [(0, 0), (1, 0)] ∧
      (5 : ℝ) ≠ 0 := by
  constructor
  · have hne : ((0, 0) : Point) ≠ (1, 0) := by
      simp [Prod.ext_iff]
    rw [create_eq_ok (0, 0) (1, 0) 2 5 hne (by norm_num), linspace01_two]
    rw [List.map_cons, List.map_cons, List.map_nil, specPoint_zero, specPoint_one]
  · norm_num

/-- C7 amended: for distinct endpoints and `n ≥ 2`, the first output point
is at parameter `t = 0` and the last at `t = 1`; the wiggle offset
`amp * sin (2 π t 3)` vanishes at those parameters, so the first and last
points equal `p0` and `p1` for every amplitude. -/
theorem C7_endpoints_exact (p0 p1 : Point) (n : ℕ) (amp : ℝ)
    (h : p0 ≠ p1) (hn : 2 ≤ n) :
    ∃ pts, create_wiggly_line p0 p1 n amp = Except.ok pts ∧
      pts.length = n ∧ pts[0]? = some p0 ∧ pts[n - 1]? = some p1 := by
  refine ⟨_, create_eq_ok p0 p1 n amp h (by omega), ?_, ?_, ?_⟩
  · rw [List.length_map, linspace01_length]
  · rw [List.getElem?_map, linspace01_getElem? n 0 (by omega)]
    simp [specPoint_zero]
  · rw [List.getElem?_map, linspace01_getElem? n (n - 1) (by omega)]
    have hden : (0 : ℝ) < (n : ℝ) - 1 := by
      have : (2 : ℝ) ≤ (n : ℝ) := by exact_mod_cast hn
      linarith
    rw [Nat.cast_sub (by omega : 1 ≤ n)]
    push_cast
    rw [div_self hden.ne']
    simp [specPoint_one]

/-- C7 witness: the amended theorem instantiated at `p0 = (0,0)`,
`p1 = (2,1)`, `n = 3`, `amp = 4`. -/
theorem C7_endpoints_witness :
    ((0, 0) : Point) ≠ (2, 1) ∧ 2 ≤ 3 ∧
      (∃ pts, create_wiggly_line (0, 0) (2, 1) 3 4 = Except.ok pts ∧
        pts[0]? = some ((0 : ℝ), (0 : ℝ)) ∧ pts[2]? = some ((2 : ℝ), (1 : ℝ))) := by
  have hne : ((0, 0) : Point) ≠ (2, 1) := by
    simp [Prod.ext_iff]
  obtain ⟨pts, h1, -, h2, h3⟩ :=
    C7_endpoints_exact (0, 0) (2, 1) 3 4 hne (by norm_num)
  exact ⟨hne, by norm_num, pts, h1, h2, h3⟩

/-- The single sample of `linspace01 1`. -/
theorem linspace01_one : linspace01 1 = [0] := by
  rw [linspace01, show List.range 1 = [0] from rfl]
  norm_num

/-- C8 counterexample: at `n = 1` and the distinct endpoints `(0,0)`,
`(2,1)` the sampled parameter list is `[0]`, but the generator raises the
single-coordinate line construction error instead of returning a one-point
line. -/
theorem C8_single_counterexample :
    linspace01 1 = [0] ∧ ((0, 0) : Point) ≠ (2, 1) ∧
      create_wiggly_line (0, 0) (2, 1) 1 3 =
        Except.error "point array must contain 0 or >1 elements" := by
  refine ⟨linspace01_one, ?_, ?_⟩
  · simp [Prod.ext_iff]
  · exact create_single_errors (0, 0) (2, 1) 3 (by simp [Prod.ext_iff])

/-- C8 amended: for `n = 1` and any `p0 ≠ p1` the single sampled parameter
value is `0`, but the generator does not return a one-point line: the line
construction rejects the single-coordinate array and fails. -/
theorem C8_single_sample (p0 p1 : Point) (amp : ℝ) (h : p0 ≠ p1) :
    linspace01 1 = [0] ∧
      create_wiggly_line p0 p1 1 amp =
        Except.error "point array must contain 0 or >1 elements" :=
  ⟨linspace01_one, create_single_errors p0 p1 amp h⟩

/-- C8 witness: the amended theorem instantiated at `p0 = (0,0)`,
`p1 = (1,0)`, `amp = 5`. -/
theorem C8_single_sample_witness :
    ((0, 0) : Point) ≠ (1, 0) ∧
      (linspace01 1 = [0] ∧
        create_wiggly_line (0, 0) (1, 0) 1 5 =
          Except.error "point array must contain 0 or >1 elements") := by
  have hne : ((0, 0) : Point) ≠ (1, 0) := by
    simp [Prod.ext_iff]
  exact ⟨hne, C8_single_sample (0, 0) (1, 0) 5 hne⟩

/-- C9: with amplitude `0` every generated point lies exactly on the
straight segment from `p0` to `p1` — it is the linear interpolation at a
parameter `t_k = k / (n - 1)` in `[0, 1]`, and the parameters are strictly
increasing. -/
theorem C9_zero_amplitude_collinear (p0 p1 : Point) (n : ℕ)
    (h : p0 ≠ p1) (hn : 2 ≤ n) :
    ∃ pts, create_wiggly_line p0 p1 n 0 = Except.ok pts ∧
      pts.length = n ∧
      (∀ k, k < n →
        pts[k]? = some (p0.1 + ((k : ℝ) / ((n : ℝ) - 1)) * (p1.1 - p0.1),
                        p0.2 + ((k : ℝ) / ((n : ℝ) - 1)) * (p1.2 - p0.2)) ∧
        0 ≤ (k : ℝ) / ((n : ℝ) - 1) ∧ (k : ℝ) / ((n : ℝ) - 1) ≤ 1) ∧
      (∀ k l : ℕ, k < l →
        (k : ℝ) / ((n : ℝ) - 1) < (l : ℝ) / ((n : ℝ) - 1)) := by
  have hden : (0 : ℝ) < (n : ℝ) - 1 := by
    have : (2 : ℝ) ≤ (n : ℝ) := by exact_mod_cast hn
    linarith
  refine ⟨_, create_eq_ok p0 p1 n 0 h (by omega), ?_, ?_, ?_⟩
  · rw [List.length_map, linspace01_length]
  · intro k hk
    refine ⟨?_, ?_, ?_⟩
    · rw [List.getElem?_map, linspace01_getElem? n k hk]
      simp [specPoint]
    · positivity
    · rw [div_le_one hden]
      have : (k : ℝ) + 1 ≤ (n : ℝ) := by exact_mod_cast hk
      linarith
  · intro k l hkl
    have hkl' : (k : ℝ) < (l : ℝ) := by exact_mod_cast hkl
    gcongr

/-- C9 witness: the theorem instantiated at `p0 = (0,0)`, `p1 = (1,0)`,
`n = 3`. -/
theorem C9_zero_amplitude_witness :
    ((0, 0) : Point) ≠ (1, 0) ∧ 2 ≤ 3 ∧
      (∃ pts, create_wiggly_line (0, 0) (1, 0) 3 0 = Except.ok pts ∧
        pts.length = 3) := by
  have hne : ((0, 0) : Point) ≠ (1, 0) := by
    simp [Prod.ext_iff]
  obtain ⟨pts, h1, h2, -⟩ :=
    C9_zero_amplitude_collinear (0, 0) (1, 0) 3 hne (by norm_num)
  exact ⟨hne, by norm_num, pts, h1, h2⟩

/-! ### List plumbing for the flattened-array pipeline -/

/-- The recursive adjacent-pair builder agrees with numpy's
`zip xs[:-1] xs[1:]`. -/
theorem consecutivePairs_eq_zip_tail {α : Type} :
    ∀ l : List α, consecutivePairs l = l.zip l.tail
  | [] => rfl
  | [_] => rfl
  | a :: b :: rest => by
    rw [consecutivePairs, consecutivePairs_eq_zip_tail (b :: rest)]
    rfl

/-- Adjacent pairs of a mapped list are mapped adjacent pairs. -/
theorem consecutivePairs_map {α β : Type} (f : α → β) :
    ∀ l : List α, consecutivePairs (l.map f) =
      (consecutivePairs l).map (fun pq => (f pq.1, f pq.2))
  | [] => rfl
  | [_] => rfl
  | a :: b :: rest => by
    rw [List.map_cons, List.map_cons, consecutivePairs,
      ← List.map_cons f b rest, consecutivePairs_map f (b :: rest)]
    rfl

/-- Adjacent pairs of a concatenation: the pairs of each part plus the one
boundary pair. -/
theorem consecutivePairs_append {α : Type} :
    ∀ (xs ys : List α) (hx : xs ≠ []) (hy : ys ≠ []),
      consecutivePairs (xs ++ ys) =
        consecutivePairs xs ++ (xs.getLast hx, ys.head hy) :: consecutivePairs ys
  | [], _, hx, _ => absurd rfl hx
  | [a], y :: ys, _, _ => by
    rw [List.singleton_append, consecutivePairs]
    rfl
  | a :: b :: t, ys, _, hy => by
    rw [List.cons_append, List.cons_append, consecutivePairs,
      ← List.cons_append b t ys,
      consecutivePairs_append (b :: t) ys (List.cons_ne_nil b t) hy,
      consecutivePairs]
    rw [List.getLast_cons (List.cons_ne_nil b t)]
    rfl

/-- Filtering the adjacent pairs of a concatenation splits when the boundary
pair is rejected. -/
theorem pairs_filterMap_append {α β : Type} (f : α × α → Option β)
    (xs ys : List α)
    (hb : ∀ (hx : xs ≠ []) (hy : ys ≠ []), f (xs.getLast hx, ys.head hy) = none) :
    (consecutivePairs (xs ++ ys)).filterMap f =
      (consecutivePairs xs).filterMap f ++ (consecutivePairs ys).filterMap f := by
  by_cases hx : xs = []
  · subst hx
    simp [consecutivePairs]
  · by_cases hy : ys = []
    · subst hy
      simp [consecutivePairs]
    · rw [consecutivePairs_append xs ys hx hy, List.filterMap_append,
        List.filterMap_cons, hb hx hy]

/-- A conditional `filterMap` that keeps `f x` factors through the plain
conditional filter. -/
theorem filterMap_if_map {α β : Type} (p : α → Prop) [DecidablePred p]
    (f : α → β) :
    ∀ l : List α, l.filterMap (fun x => if p x then some (f x) else none) =
      (l.filterMap (fun x => if p x then some x else none)).map f
  | [] => rfl
  | a :: l => by
    by_cases h : p a
    · rw [List.filterMap_cons, List.filterMap_cons]
      simp only [if_pos h]
      rw [List.map_cons, filterMap_if_map p f l]
    · rw [List.filterMap_cons, List.filterMap_cons]
      simp only [if_neg h]
      exact filterMap_if_map p f l

/-- A conditional `filterMap` whose condition holds everywhere is a map. -/
theorem filterMap_if_all {α β : Type} (p : α → Prop) [DecidablePred p]
    (f : α → β) :
    ∀ l : List α, (∀ x ∈ l, p x) →
      l.filterMap (fun x => if p x then some (f x) else none) = l.map f
  | [], _ => rfl
  | a :: l, h => by
    rw [List.filterMap_cons]
    simp only [if_pos (h a (List.mem_cons_self a l))]
    rw [List.map_cons, filterMap_if_all p f l (fun x hx => h x (List.mem_cons_of_mem a hx))]

/-- A conditional `filterMap` whose condition fails everywhere is empty. -/
theorem filterMap_if_none {α β : Type} (p : α → Prop) [DecidablePred p]
    (f : α → β) :
    ∀ l : List α, (∀ x ∈ l, ¬ p x) →
      l.filterMap (fun x => if p x then some (f x) else none) = []
  | [], _ => rfl
  | a :: l, h => by
    rw [List.filterMap_cons]
    simp only [if_neg (h a (List.mem_cons_self a l))]
    exact filterMap_if_none p f l (fun x hx => h x (List.mem_cons_of_mem a hx))

/-- A `filterMap` that always keeps is a map. -/
theorem filterMap_some_eq_map {α β : Type} (f : α → β) :
    ∀ l : List α, l.filterMap (fun x => some (f x)) = l.map f
  | [] => rfl
  | a :: l => by
    rw [List.filterMap_cons, List.map_cons, filterMap_some_eq_map f l]

/-- Lists shorter than two elements have no adjacent pairs. -/
theorem consecutivePairs_of_short {α : Type} :
    ∀ l : List α, l.length ≤ 1 → consecutivePairs l = []
  | [], _ => rfl
  | [_], _ => rfl
  | _ :: _ :: _, h => by simp at h

/-! ### Per-line decomposition of the aggregator pipeline -/

/-- The segments a single line contributes, tagged with its row. -/
def ptsSegs (i : ℕ) (pts : List Point) : List Seg :=
  (consecutivePairs pts).map (fun pq => ⟨pq.1, pq.2, i⟩)

/-- Per-line reading of `rawSegs`, starting at row `i`. -/
def segsFrom : ℕ → List (List Point) → List Seg
  | _, [] => []
  | i, g :: gs => ptsSegs i g ++ segsFrom (i + 1) gs

/-- Every flattened coordinate from row `i` onwards carries a parent `≥ i`. -/
theorem getCoordinatesAux_parent_ge :
    ∀ (gs : List (List Point)) (i : ℕ), ∀ c ∈ getCoordinatesAux i gs, i ≤ c.2
  | [], _, c, hc => absurd hc (by simp [getCoordinatesAux])
  | g :: gs, i, c, hc => by
    rw [getCoordinatesAux, List.mem_append] at hc
    rcases hc with hc | hc
    · obtain ⟨p, -, hp⟩ := List.mem_map.mp hc
      rw [← hp]
    · exact le_trans (Nat.le_succ i) (getCoordinatesAux_parent_ge gs (i + 1) c hc)

/-- If the flattened coordinates are empty, the per-line segments are too. -/
theorem segsFrom_eq_nil_of_coords_nil :
    ∀ (gs : List (List Point)) (i : ℕ),
      getCoordinatesAux i gs = [] → segsFrom i gs = []
  | [], _, _ => rfl
  | g :: gs, i, h => by
    rw [getCoordinatesAux, List.append_eq_nil] at h
    rw [segsFrom, segsFrom_eq_nil_of_coords_nil gs (i + 1) h.2,
      show g = [] from List.map_eq_nil_iff.mp h.1]
    rfl

/-- Structural lemma: the same-parent mask over the flattened pairs yields
exactly the per-line consecutive segments. -/
theorem sameParentPairs_eq_segsFrom :
    ∀ (gs : List (List Point)) (i : ℕ),
      sameParentPairs (getCoordinatesAux i gs) = segsFrom i gs
  | [], _ => rfl
  | g :: gs, i => by
    rw [getCoordinatesAux, segsFrom, sameParentPairs]
    rw [pairs_filterMap_append _ _ _ (fun hx hy => ?bdry)]
    case bdry =>
      have h1 : (g.map (fun p => (p, i))).getLast hx ∈ g.map (fun p => (p, i)) :=
        List.getLast_mem hx
      obtain ⟨p, -, hp⟩ := List.mem_map.mp h1
      have h2 : i + 1 ≤ ((getCoordinatesAux (i + 1) gs).head hy).2 :=
        getCoordinatesAux_parent_ge gs (i + 1) _ (List.head_mem hy)
      rw [if_neg]
      rw [← hp]
      simp only
      omega
    rw [show (consecutivePairs (getCoordinatesAux (i + 1) gs)).filterMap
        (fun pq => if pq.1.2 = pq.2.2 then some ⟨pq.1.1, pq.2.1, pq.1.2⟩ else none) =
        sameParentPairs (getCoordinatesAux (i + 1) gs) from rfl,
      sameParentPairs_eq_segsFrom gs (i + 1)]
    rw [consecutivePairs_map]
    rw [List.filterMap_map]
    rw [ptsSegs]
    congr 1
    rw [show ((fun pq : (Point × ℕ) × (Point × ℕ) =>
        if pq.1.2 = pq.2.2 then some (⟨pq.1.1, pq.2.1, pq.1.2⟩ : Seg) else none) ∘
        (fun pq : Point × Point => ((pq.1, i), (pq.2, i)))) =
        fun pq : Point × Point => some (⟨pq.1, pq.2, i⟩ : Seg) from
      funext fun pq => if_pos rfl]
    rw [filterMap_some_eq_map]

/-- `rawSegs` decomposes into per-line segments. -/
theorem rawSegs_eq (geoms : List (List Point)) :
    rawSegs geoms = segsFrom 0 geoms := by
  rw [rawSegs, getCoordinates, sameParentPairs_eq_segsFrom]

/-- The non-degenerate consecutive point pairs of one line (the `nz` mask
restricted to that line). -/
def linePairs (pts : List Point) : List (Point × Point) :=
  (consecutivePairs pts).filterMap (fun pq =>
    if pq.2.1 - pq.1.1 ≠ 0 ∨ pq.2.2 - pq.1.2 ≠ 0 then some pq else none)

/-- Per-line reading of `nzSegs`, starting at row `i`. -/
def nzFrom : ℕ → List (List Point) → List Seg
  | _, [] => []
  | i, g :: gs =>
      (linePairs g).map (fun pq => ⟨pq.1, pq.2, i⟩) ++ nzFrom (i + 1) gs

/-- The zero-length mask respects the per-line decomposition. -/
theorem nz_filter_segsFrom :
    ∀ (gs : List (List Point)) (i : ℕ),
      (segsFrom i gs).filterMap
        (fun s => if s.dx ≠ 0 ∨ s.dy ≠ 0 then some s else none) = nzFrom i gs
  | [], _ => rfl
  | g :: gs, i => by
    rw [segsFrom, nzFrom, List.filterMap_append,
      nz_filter_segsFrom gs (i + 1), ptsSegs, List.filterMap_map]
    congr 1
    rw [show ((fun s : Seg => if s.dx ≠ 0 ∨ s.dy ≠ 0 then some s else none) ∘
        (fun pq : Point × Point => (⟨pq.1, pq.2, i⟩ : Seg))) =
        fun pq : Point × Point =>
          if pq.2.1 - pq.1.1 ≠ 0 ∨ pq.2.2 - pq.1.2 ≠ 0 then
            some ((fun pq : Point × Point => (⟨pq.1, pq.2, i⟩ : Seg)) pq)
          else none from rfl]
    rw [filterMap_if_map (fun pq : Point × Point =>
      pq.2.1 - pq.1.1 ≠ 0 ∨ pq.2.2 - pq.1.2 ≠ 0)]
    rfl

/-- `nzSegs` decomposes into per-line non-degenerate segments. -/
theorem nzSegs_eq (geoms : List (List Point)) :
    nzSegs geoms = nzFrom 0 geoms := by
  rw [nzSegs, rawSegs_eq, nz_filter_segsFrom]

/-- Every surviving segment from row `i` onwards has parent `≥ i`. -/
theorem nzFrom_parent_ge :
    ∀ (gs : List (List Point)) (i : ℕ), ∀ s ∈ nzFrom i gs, i ≤ s.parent
  | [], _, s, hs => absurd hs (by simp [nzFrom])
  | g :: gs, i, s, hs => by
    rw [nzFrom, List.mem_append] at hs
    rcases hs with hs | hs
    · obtain ⟨pq, -, hpq⟩ := List.mem_map.mp hs
      rw [← hpq]
    · exact le_trans (Nat.le_succ i) (nzFrom_parent_ge gs (i + 1) s hs)

/-- Bearing of a directed point pair, as computed by the aggregator. -/
def bearingOf (pq : Point × Point) : ℝ :=
  bearing (pq.2.1 - pq.1.1) (pq.2.2 - pq.1.2)

/-- The turns a single line contributes, in order. -/
def lineTurns (pts : List Point) : List ℝ :=
  (consecutivePairs (linePairs pts)).map
    (fun ab => turn (bearingOf ab.1) (bearingOf ab.2))

/-- The total absolute bearing change of a single line. -/
def lineTotal (pts : List Point) : ℝ := (lineTurns pts).sum

/-- Per-line reading of `turnsWithParent`, starting at row `i`. -/
def turnsFrom : ℕ → List (List Point) → List (ℝ × ℕ)
  | _, [] => []
  | i, g :: gs => (lineTurns g).map (fun v => (v, i)) ++ turnsFrom (i + 1) gs

/-- The adjacent-segment mask respects the per-line decomposition: turns are
computed between consecutive surviving segments of the same line. -/
theorem turns_nzFrom :
    ∀ (gs : List (List Point)) (i : ℕ),
      (consecutivePairs (nzFrom i gs)).filterMap turnCond = turnsFrom i gs
  | [], _ => rfl
  | g :: gs, i => by
    rw [nzFrom, turnsFrom]
    rw [pairs_filterMap_append _ _ _ (fun hx hy => ?bdry)]
    case bdry =>
      have h1 : ((linePairs g).map
          (fun pq => (⟨pq.1, pq.2, i⟩ : Seg))).getLast hx ∈
          (linePairs g).map (fun pq => (⟨pq.1, pq.2, i⟩ : Seg)) :=
        List.getLast_mem hx
      obtain ⟨pq, -, hpq⟩ := List.mem_map.mp h1
      have h2 : i + 1 ≤ ((nzFrom (i + 1) gs).head hy).parent :=
        nzFrom_parent_ge gs (i + 1) _ (List.head_mem hy)
      rw [turnCond, if_neg]
      rw [← hpq]
      simp only
      omega
    rw [turns_nzFrom gs (i + 1)]
    congr 1
    rw [consecutivePairs_map, List.filterMap_map]
    rw [show (turnCond ∘ (fun pq : (Point × Point) × (Point × Point) =>
        ((⟨pq.1.1, pq.1.2, i⟩ : Seg), (⟨pq.2.1, pq.2.2, i⟩ : Seg)))) =
        fun ab : (Point × Point) × (Point × Point) =>
          some (turn (bearingOf ab.1) (bearingOf ab.2), i) from
      funext fun ab => if_pos rfl]
    rw [filterMap_some_eq_map, lineTurns, List.map_map]
    rfl

/-- `turnsWithParent` decomposes into per-line turn lists. -/
theorem turnsWithParent_eq (geoms : List (List Point)) :
    turnsWithParent geoms = turnsFrom 0 geoms := by
  rw [turnsWithParent, nzSegs_eq, turns_nzFrom]

/-- Every turn from row `i` onwards has parent `≥ i`. -/
theorem turnsFrom_parent_ge :
    ∀ (gs : List (List Point)) (i : ℕ), ∀ t ∈ turnsFrom i gs, i ≤ t.2
  | [], _, t, ht => absurd ht (by simp [turnsFrom])
  | g :: gs, i, t, ht => by
    rw [turnsFrom, List.mem_append] at ht
    rcases ht with ht | ht
    · obtain ⟨v, -, hv⟩ := List.mem_map.mp ht
      rw [← hv]
    · exact le_trans (Nat.le_succ i) (turnsFrom_parent_ge gs (i + 1) t ht)

/-! ### Grouped sums -/

/-- Summing the turns filtered at a row below the running offset gives 0. -/
theorem sum_turnsFrom_lt (gs : List (List Point)) (i j : ℕ) (hj : j < i) :
    (((turnsFrom i gs).filter (fun t => t.2 = j)).map Prod.fst).sum = 0 := by
  rw [List.filter_eq_nil_iff.mpr]
  · rfl
  · intro t ht
    have := turnsFrom_parent_ge gs i t ht
    simp only [decide_eq_true_eq]
    omega

/-- Summing the turns filtered at row `i + k` extracts exactly line `k`'s
total. -/
theorem sum_turnsFrom (gs : List (List Point)) :
    ∀ (i k : ℕ), k < gs.length →
      (((turnsFrom i gs).filter (fun t => t.2 = i + k)).map Prod.fst).sum =
        lineTotal (gs.getD k []) := by
  induction gs with
  | nil => intro i k hk; simp at hk
  | cons g gs ih =>
    intro i k hk
    rw [turnsFrom, List.filter_append, List.map_append, List.sum_append]
    cases k with
    | zero =>
      rw [Nat.add_zero]
      have hblock : ((lineTurns g).map (fun v => (v, i))).filter
          (fun t => t.2 = i) = (lineTurns g).map (fun v => (v, i)) := by
        rw [List.filter_eq_self]
        intro t ht
        obtain ⟨v, -, hv⟩ := List.mem_map.mp ht
        rw [← hv]
        simp
      rw [hblock, sum_turnsFrom_lt gs (i + 1) i (Nat.lt_succ_self i),
        List.map_map, add_zero]
      rw [show (Prod.fst ∘ fun v : ℝ => (v, i)) = id from rfl, List.map_id]
      rfl
    | succ k =>
      have hblock : ((lineTurns g).map (fun v => (v, i))).filter
          (fun t => t.2 = i + (k + 1)) = [] := by
        rw [List.filter_eq_nil_iff]
        intro t ht
        obtain ⟨v, -, hv⟩ := List.mem_map.mp ht
        rw [← hv]
        simp only [decide_eq_true_eq]
        omega
      rw [hblock]
      have hk' : k < gs.length := by
        simpa using Nat.lt_of_succ_lt_succ hk
      have := ih (i + 1) k hk'
      rw [show i + (k + 1) = (i + 1) + k by omega]
      rw [this]
      simp

/-- The grouped sum at a row within range is that line's total bearing
change. -/
theorem sumForParent_eq (geoms : List (List Point)) (j : ℕ)
    (hj : j < geoms.length) :
    sumForParent (turnsWithParent geoms) j = lineTotal (geoms.getD j []) := by
  rw [sumForParent, turnsWithParent_eq]
  have := sum_turnsFrom geoms 0 j hj
  rwa [Nat.zero_add] at this

/-- A row with no turns has grouped sum 0. -/
theorem sumForParent_eq_zero (ts : List (ℝ × ℕ)) (j : ℕ)
    (h : ∀ t ∈ ts, t.2 ≠ j) : sumForParent ts j = 0 := by
  rw [sumForParent, List.filter_eq_nil_iff.mpr]
  · rfl
  · intro t ht
    simp only [decide_eq_true_eq]
    exact h t ht

/-- Membership in the group-by key list. -/
theorem groupedParents_mem (m : ℕ) (ts : List (ℝ × ℕ)) (j : ℕ) :
    j ∈ groupedParents m ts ↔ j < m ∧ ∃ t ∈ ts, t.2 = j := by
  simp [groupedParents, List.mem_filter, List.mem_range, List.any_eq_true]

/-! ### The label-aligned series assembly -/

/-- A label update keeps the identifier column unchanged. -/
theorem locUpdate_map_fst (out : List (ℕ × ℝ)) (lab : ℕ) (v : ℝ) :
    (locUpdate out lab v).map Prod.fst = out.map Prod.fst := by
  rw [locUpdate, List.map_map]
  apply List.map_congr_left
  intro e _
  by_cases h : e.1 = lab
  · simp [h]
  · simp [h]

/-- Row `j` of a label update. -/
theorem locUpdate_getElem? (out : List (ℕ × ℝ)) (lab : ℕ) (v : ℝ) (j : ℕ) :
    (locUpdate out lab v)[j]? =
      (out[j]?).map (fun e => if e.1 = lab then (e.1, v) else e) := by
  rw [locUpdate, List.getElem?_map]

/-- The fold of label updates keeps the identifier column unchanged. -/
theorem foldl_locUpdate_map_fst (index : List ℕ) (g : ℕ → ℝ) :
    ∀ (ps : List ℕ) (out : List (ℕ × ℝ)),
      ((ps.foldl (fun o i => locUpdate o (index.getD i 0) (g i)) out).map
        Prod.fst) = out.map Prod.fst
  | [], _ => rfl
  | i :: ps, out => by
    rw [List.foldl_cons, foldl_locUpdate_map_fst index g ps _, locUpdate_map_fst]

/-- Row `j`'s value after the fold of label updates, for unique
identifiers: the only update that can hit row `j` is the one at parent `j`
itself. -/
theorem foldl_locUpdate_getElem? (index : List ℕ) (hnd : index.Nodup)
    (g : ℕ → ℝ) (j : ℕ) (hj : j < index.length) :
    ∀ ps : List ℕ, (∀ i ∈ ps, i < index.length) →
      ∀ out : List (ℕ × ℝ), out.map Prod.fst = index →
      (ps.foldl (fun o i => locUpdate o (index.getD i 0) (g i)) out)[j]? =
        if j ∈ ps then some (index.getD j 0, g j) else out[j]?
  | [], _, out, _ => by simp
  | i :: ps, hps, out, hout => by
    rw [List.foldl_cons]
    rw [foldl_locUpdate_getElem? index hnd g j hj ps
      (fun x hx => hps x (List.mem_cons_of_mem i hx)) _
      (by rw [locUpdate_map_fst]; exact hout)]
    have hlen : out.length = index.length := by
      rw [← hout, List.length_map]
    have hjo : j < out.length := by omega
    obtain ⟨e, he⟩ : ∃ e, out[j]? = some e :=
      ⟨_, List.getElem?_eq_getElem hjo⟩
    have hfst : e.1 = index.getD j 0 := by
      have h1 : (out.map Prod.fst)[j]? = some e.1 := by
        rw [List.getElem?_map, he]
        rfl
      rw [hout, List.getElem?_eq_getElem hj] at h1
      rw [List.getD_eq_getElem index 0 hj]
      exact (Option.some.inj h1).symm
    by_cases hjps : j ∈ ps
    · rw [if_pos hjps, if_pos (List.mem_cons_of_mem i hjps)]
    · rw [if_neg hjps, locUpdate_getElem?, he]
      rcases eq_or_ne i j with hij | hij
      · rw [hij, if_pos (List.mem_cons_self j ps), Option.map_some']
        rw [if_pos hfst, hfst]
      · have hil : i < index.length := hps i (List.mem_cons_self i ps)
        have hlabne : index.getD i 0 ≠ index.getD j 0 := by
          rw [List.getD_eq_getElem index 0 hil, List.getD_eq_getElem index 0 hj]
          intro hcon
          exact hij (hnd.getElem_inj_iff.mp hcon)
        have hjcons : j ∉ i :: ps := by
          rw [List.mem_cons]
          rintro (hc | hc)
          · exact hij hc.symm
          · exact hjps hc
        rw [if_neg hjcons, Option.map_some',
          if_neg (fun hc => hlabne (hfst ▸ hc).symm)]

/-- With no turns at all the group keys are empty and the assembled series
is the all-zero series. -/
theorem assembled_of_turns_nil (gdf : GeoDataFrame)
    (h : turnsWithParent gdf.geoms = []) :
    assembled gdf = gdf.index.map (fun lab => (lab, (0 : ℝ))) := by
  rw [assembled, h]
  simp [groupedParents]

/-- Fewer than two flattened coordinates leave no segments. -/
theorem rawSegs_nil_of_short (geoms : List (List Point))
    (h : (getCoordinates geoms).length < 2) : rawSegs geoms = [] := by
  rw [rawSegs, sameParentPairs, consecutivePairs_of_short _ (by omega)]
  rfl

/-- No segments leave no surviving segments. -/
theorem nzSegs_nil_of (geoms : List (List Point))
    (h : rawSegs geoms = []) : nzSegs geoms = [] := by
  rw [nzSegs, h]
  rfl

/-- No surviving segments leave no turns. -/
theorem turns_nil_of (geoms : List (List Point))
    (h : nzSegs geoms = []) : turnsWithParent geoms = [] := by
  rw [turnsWithParent, h]
  rfl

/-- For unique identifiers every grouped label occurs exactly once in the
index, so the list-indexer selection aligns with the grouped values and the
aggregator succeeds with the assembled series. -/
theorem total_eq_ok (gdf : GeoDataFrame) (hnd : gdf.index.Nodup) :
    total_bearing_change_planar gdf = Except.ok (assembled gdf) := by
  have hcond : ((groupedParents gdf.geoms.length
        (turnsWithParent gdf.geoms)).map
      (fun i => gdf.index.count (gdf.index.getD i 0))).sum =
      (groupedParents gdf.geoms.length (turnsWithParent gdf.geoms)).length := by
    have hone : ∀ i ∈ groupedParents gdf.geoms.length
        (turnsWithParent gdf.geoms),
        gdf.index.count (gdf.index.getD i 0) = 1 := by
      intro i hi
      have hil : i < gdf.index.length := by
        rw [gdf.hlen]
        exact ((groupedParents_mem _ _ i).mp hi).1
      have hmem : gdf.index.getD i 0 ∈ gdf.index := by
        rw [List.getD_eq_getElem _ _ hil]
        exact List.getElem_mem _
      exact List.count_eq_one_of_mem hnd hmem
    rw [List.map_congr_left hone, List.map_const']
    simp
  rw [total_bearing_change_planar]
  split_ifs with h1 h2 h3 h4
  · rw [assembled_of_turns_nil gdf
      (turns_nil_of _ (nzSegs_nil_of _ (rawSegs_nil_of_short _ h1)))]
  · rw [assembled_of_turns_nil gdf (turns_nil_of _ (nzSegs_nil_of _ h2))]
  · rw [assembled_of_turns_nil gdf (turns_nil_of _ h3)]
  · rw [assembled_of_turns_nil gdf h4]
  · dsimp only
    rw [if_pos hcond]
    rfl

/-- When some turn exists and a grouped label is duplicated in the index,
the selection of the label-based assignment cannot be aligned with the
grouped values and the aggregator fails. -/
theorem total_eq_error (gdf : GeoDataFrame)
    (ht : turnsWithParent gdf.geoms ≠ [])
    (hc : ((groupedParents gdf.geoms.length
          (turnsWithParent gdf.geoms)).map
        (fun i => gdf.index.count (gdf.index.getD i 0))).sum ≠
      (groupedParents gdf.geoms.length (turnsWithParent gdf.geoms)).length) :
    total_bearing_change_planar gdf = Except.error
      "cannot set using a list-like indexer with a different length than the value" := by
  have h3 : ¬ nzSegs gdf.geoms = [] := fun h => ht (turns_nil_of _ h)
  have h2 : ¬ rawSegs gdf.geoms = [] := fun h => h3 (nzSegs_nil_of _ h)
  have h1 : ¬ (getCoordinates gdf.geoms).length < 2 :=
    fun h => h2 (rawSegs_nil_of_short _ h)
  rw [total_bearing_change_planar]
  split_ifs
  dsimp only
  rw [if_neg hc]

/-- The assembled series carries exactly the input identifiers, in the
input's order. -/
theorem assembled_map_fst (gdf : GeoDataFrame) :
    (assembled gdf).map Prod.fst = gdf.index := by
  rw [assembled, foldl_locUpdate_map_fst, List.map_map]
  rw [show (Prod.fst ∘ fun lab : ℕ => (lab, (0 : ℝ))) = id from rfl, List.map_id]

/-- Row `j` of the assembled series, for unique identifiers: the row's own
identifier paired with its grouped turn sum (0 by default). -/
theorem assembled_getElem? (gdf : GeoDataFrame) (hnd : gdf.index.Nodup)
    (j : ℕ) (hj : j < gdf.index.length) :
    (assembled gdf)[j]? =
      some (gdf.index.getD j 0, sumForParent (turnsWithParent gdf.geoms) j) := by
  rw [assembled]
  rw [foldl_locUpdate_getElem? gdf.index hnd
    (fun i => sumForParent (turnsWithParent gdf.geoms) i) j hj
    (groupedParents gdf.geoms.length (turnsWithParent gdf.geoms))
    (fun i hi => by
      have h := ((groupedParents_mem _ _ i).mp hi).1
      rw [gdf.hlen]
      exact h)
    _ (by
      rw [List.map_map]
      rw [show (Prod.fst ∘ fun lab : ℕ => (lab, (0 : ℝ))) = id from rfl,
        List.map_id])]
  by_cases hjm : j ∈ groupedParents gdf.geoms.length (turnsWithParent gdf.geoms)
  · rw [if_pos hjm]
  · rw [if_neg hjm]
    have hnot : ∀ t ∈ turnsWithParent gdf.geoms, t.2 ≠ j := by
      intro t ht hc
      exact hjm ((groupedParents_mem _ _ j).mpr
        ⟨by rw [← gdf.hlen]; exact hj, t, ht, hc⟩)
    rw [sumForParent_eq_zero _ _ hnot, List.getElem?_map,
      List.getElem?_eq_getElem hj, List.getD_eq_getElem gdf.index 0 hj]
    rfl

/-- A one-line collection succeeds and returns exactly that line's total,
labelled with its identifier. -/
theorem total_single (id : ℕ) (pts : List Point) :
    total_bearing_change_planar ⟨[id], [pts], rfl⟩ =
      Except.ok [(id, lineTotal pts)] := by
  rw [total_eq_ok _ (List.nodup_singleton id)]
  have h1 := assembled_map_fst ⟨[id], [pts], rfl⟩
  have h2 := assembled_getElem? ⟨[id], [pts], rfl⟩ (List.nodup_singleton id) 0
    (by simp)
  have hs : sumForParent (turnsWithParent ([pts] : List (List Point))) 0 =
      lineTotal pts := by
    have h := sumForParent_eq [pts] 0 (by simp)
    simpa using h
  rw [hs] at h2
  have hlen : (assembled ⟨[id], [pts], rfl⟩).length = 1 := by
    have h := congrArg List.length h1
    rwa [List.length_map] at h
  congr 1
  apply List.ext_getElem?
  intro k
  cases k with
  | zero =>
    rw [h2]
    rfl
  | succ k =>
    rw [List.getElem?_eq_none (by omega), List.getElem?_eq_none (by simp)]

/-! ### Concrete bearing evaluations -/

/-- Conditional `filterMap` keeps an element satisfying the condition. -/
theorem filterMap_if_cons_pos {α β : Type} (p : α → Prop) [DecidablePred p]
    (f : α → β) (a : α) (l : List α) (h : p a) :
    (a :: l).filterMap (fun x => if p x then some (f x) else none) =
      f a :: l.filterMap (fun x => if p x then some (f x) else none) := by
  rw [List.filterMap_cons]
  rw [if_pos h]

/-- Conditional `filterMap` drops an element failing the condition. -/
theorem filterMap_if_cons_neg {α β : Type} (p : α → Prop) [DecidablePred p]
    (f : α → β) (a : α) (l : List α) (h : ¬ p a) :
    (a :: l).filterMap (fun x => if p x then some (f x) else none) =
      l.filterMap (fun x => if p x then some (f x) else none) := by
  rw [List.filterMap_cons]
  rw [if_neg h]

/-- numpy `arctan2 0 x` is 0 for positive `x` (due North displacement). -/
theorem arctan2_zero_of_pos (x : ℝ) (hx : 0 < x) : arctan2 0 x = 0 := by
  rw [arctan2, show (⟨x, 0⟩ : ℂ) = (x : ℂ) from rfl]
  exact Complex.arg_ofReal_of_nonneg hx.le

/-- numpy `arctan2 y 0` is `π / 2` for positive `y` (due East displacement
in bearing convention). -/
theorem arctan2_pos_zero (y : ℝ) (hy : 0 < y) : arctan2 y 0 = π / 2 := by
  rw [arctan2, show (⟨0, y⟩ : ℂ) = (y : ℂ) * Complex.I from by
    apply Complex.ext <;> simp]
  rw [Complex.arg_real_mul Complex.I hy, Complex.arg_I]

/-- Zero radians is zero degrees. -/
theorem degrees_zero : degrees 0 = 0 := by
  rw [degrees]
  simp

/-- A right angle in degrees. -/
theorem degrees_pi_div_two : degrees (π / 2) = 90 := by
  rw [degrees]
  field_simp
  ring

/-- `360 % 360 = 0`. -/
theorem fmod_360_360 : fmod 360 360 = 0 := by
  rw [fmod_eq_of_bounds 360 360 1 (by norm_num) (by norm_num) (by norm_num)]
  norm_num

/-- `450 % 360 = 90`. -/
theorem fmod_450_360 : fmod 450 360 = 90 := by
  rw [fmod_eq_of_bounds 450 360 1 (by norm_num) (by norm_num) (by norm_num)]
  norm_num

/-- `270 % 360 = 270`. -/
theorem fmod_270_360 : fmod 270 360 = 270 := by
  rw [fmod_eq_of_bounds 270 360 0 (by norm_num) (by norm_num) (by norm_num)]
  norm_num

/-- A due-North segment has bearing 0. -/
theorem bearing_north (dy : ℝ) (h : 0 < dy) : bearing 0 dy = 0 := by
  rw [bearing, arctan2_zero_of_pos dy h, degrees_zero, zero_add, fmod_360_360]

/-- A due-East segment has bearing 90. -/
theorem bearing_east (dx : ℝ) (h : 0 < dx) : bearing dx 0 = 90 := by
  rw [bearing, arctan2_pos_zero dx h, degrees_pi_div_two,
    show (90 : ℝ) + 360 = 450 by norm_num, fmod_450_360]

/-- Turning from due North to due East is a 90-degree turn. -/
theorem turn_north_east : turn 0 90 = 90 := by
  rw [turn, show (90 : ℝ) - 0 + 180 = 270 by norm_num, fmod_270_360]
  norm_num

/-- The right-angle example line contributes the single turn 90. -/
theorem lineTurns_right_angle :
    lineTurns [((0 : ℝ), (0 : ℝ)), (0, 10), (10, 10)] = [90] := by
  have hlp : linePairs [((0 : ℝ), (0 : ℝ)), (0, 10), (10, 10)] =
      [((0, 0), (0, 10)), ((0, 10), (10, 10))] := by
    rw [linePairs,
      show consecutivePairs [((0 : ℝ), (0 : ℝ)), (0, 10), (10, 10)] =
        [(((0 : ℝ), (0 : ℝ)), ((0 : ℝ), (10 : ℝ))),
         (((0 : ℝ), (10 : ℝ)), ((10 : ℝ), (10 : ℝ)))] from rfl]
    rw [filterMap_if_cons_pos _ _ _ _ (by norm_num),
      filterMap_if_cons_pos _ _ _ _ (by norm_num)]
    rfl
  rw [lineTurns, hlp,
    show consecutivePairs
        [(((0 : ℝ), (0 : ℝ)), ((0 : ℝ), (10 : ℝ))),
         (((0 : ℝ), (10 : ℝ)), ((10 : ℝ), (10 : ℝ)))] =
      [((((0 : ℝ), (0 : ℝ)), ((0 : ℝ), (10 : ℝ))),
        (((0 : ℝ), (10 : ℝ)), ((10 : ℝ), (10 : ℝ))))] from rfl]
  rw [List.map_cons, List.map_nil]
  rw [show bearingOf (((0 : ℝ), (0 : ℝ)), ((0 : ℝ), (10 : ℝ))) = bearing 0 10 by
    rw [bearingOf]; norm_num]
  rw [show bearingOf (((0 : ℝ), (10 : ℝ)), ((10 : ℝ), (10 : ℝ))) = bearing 10 0 by
    rw [bearingOf]; norm_num]
  rw [bearing_north 10 (by norm_num), bearing_east 10 (by norm_num),
    turn_north_east]

/-- The right-angle example line has total bearing change 90. -/
theorem lineTotal_right_angle :
    lineTotal [((0 : ℝ), (0 : ℝ)), (0, 10), (10, 10)] = 90 := by
  rw [lineTotal, lineTurns_right_angle, List.sum_cons, List.sum_nil, add_zero]

/-- C3 counterexample: two lines that both turn by 90 share the duplicated
identifier 1; the grouped sums exist (90 for each row position) but the
label-aligned assignment selects four rows for two grouped values, so the
aggregator fails instead of producing the claimed mapping. -/
theorem C3_duplicate_counterexample :
    sumForParent (turnsWithParent
      ([[(0, 0), (0, 10), (10, 10)], [(0, 0), (0, 10), (10, 10)]] :
        List (List Point))) 0 = 90 ∧
    sumForParent (turnsWithParent
      ([[(0, 0), (0, 10), (10, 10)], [(0, 0), (0, 10), (10, 10)]] :
        List (List Point))) 1 = 90 ∧
    total_bearing_change_planar
      ⟨[1, 1], [[(0, 0), (0, 10), (10, 10)], [(0, 0), (0, 10), (10, 10)]],
        rfl⟩ =
      Except.error
        "cannot set using a list-like indexer with a different length than the value" := by
  have hts : turnsWithParent
      ([[(0, 0), (0, 10), (10, 10)], [(0, 0), (0, 10), (10, 10)]] :
        List (List Point)) = [((90 : ℝ), 0), ((90 : ℝ), 1)] := by
    rw [turnsWithParent_eq]
    simp only [turnsFrom, lineTurns_right_angle]
    rfl
  refine ⟨?_, ?_, ?_⟩
  · rw [sumForParent, hts,
      show ([((90 : ℝ), 0), ((90 : ℝ), 1)] : List (ℝ × ℕ)).filter
        (fun t => t.2 = 0) = [((90 : ℝ), 0)] from rfl,
      List.map_cons, List.map_nil, List.sum_cons, List.sum_nil, add_zero]
  · rw [sumForParent, hts,
      show ([((90 : ℝ), 0), ((90 : ℝ), 1)] : List (ℝ × ℕ)).filter
        (fun t => t.2 = 1) = [((90 : ℝ), 1)] from rfl,
      List.map_cons, List.map_nil, List.sum_cons, List.sum_nil, add_zero]
  · apply total_eq_error
    · show turnsWithParent
        ([[(0, 0), (0, 10), (10, 10)], [(0, 0), (0, 10), (10, 10)]] :
          List (List Point)) ≠ []
      rw [hts]
      simp
    · show ((groupedParents
          ([[(0, 0), (0, 10), (10, 10)], [(0, 0), (0, 10), (10, 10)]] :
            List (List Point)).length
          (turnsWithParent
            ([[(0, 0), (0, 10), (10, 10)], [(0, 0), (0, 10), (10, 10)]] :
              List (List Point)))).map
          (fun i => ([1, 1] : List ℕ).count (([1, 1] : List ℕ).getD i 0))).sum ≠
        (groupedParents
          ([[(0, 0), (0, 10), (10, 10)], [(0, 0), (0, 10), (10, 10)]] :
            List (List Point)).length
          (turnsWithParent
            ([[(0, 0), (0, 10), (10, 10)], [(0, 0), (0, 10), (10, 10)]] :
              List (List Point)))).length
      rw [hts]
      decide

/-- C3 corrected: for unique identifiers the aggregator succeeds and its
result carries exactly the input identifiers in the input's order, each row
defaulting to 0.0 and overwritten with its line's grouped turn sum when the
line produced at least one turn.  When an identifier receiving a grouped
sum is duplicated in the index, the label-aligned assignment cannot align
its selection with the grouped values and the aggregator fails instead. -/
theorem C3_result_assembly (gdf : GeoDataFrame) (hnd : gdf.index.Nodup) :
    ∃ out, total_bearing_change_planar gdf = Except.ok out ∧
      out.map Prod.fst = gdf.index ∧
      ∀ j, j < gdf.index.length →
        out[j]? = some (gdf.index.getD j 0,
          sumForParent (turnsWithParent gdf.geoms) j) ∧
        ((∀ t ∈ turnsWithParent gdf.geoms, t.2 ≠ j) →
          out[j]? = some (gdf.index.getD j 0, 0)) := by
  refine ⟨assembled gdf, total_eq_ok gdf hnd, assembled_map_fst gdf,
    fun j hj => ⟨assembled_getElem? gdf hnd j hj, fun hno => ?_⟩⟩
  rw [assembled_getElem? gdf hnd j hj, sumForParent_eq_zero _ _ hno]

/-- C3 witness: non-sequential identifiers 5 and 3; the first line turns
by 90 degrees, the second is a single point contributing the default 0. -/
theorem C3_result_witness :
    ([5, 3] : List ℕ).Nodup ∧
      (∃ out, total_bearing_change_planar
          ⟨[5, 3], [[(0, 0), (0, 10), (10, 10)], [(9, 9)]], rfl⟩ =
          Except.ok out ∧
        out[0]? = some (5, 90) ∧ out[1]? = some (3, 0)) := by
  have hnd : ([5, 3] : List ℕ).Nodup := by decide
  obtain ⟨out, hok, hfst, hval⟩ := C3_result_assembly
    ⟨[5, 3], [[(0, 0), (0, 10), (10, 10)], [(9, 9)]], rfl⟩ hnd
  refine ⟨hnd, out, hok, ?_, ?_⟩
  · have h0 := (hval 0 (by norm_num)).1
    rw [h0, sumForParent_eq _ 0 (by norm_num)]
    rw [show ([[((0 : ℝ), (0 : ℝ)), (0, 10), (10, 10)],
      [((9 : ℝ), (9 : ℝ))]].getD 0 []) =
      [((0 : ℝ), (0 : ℝ)), (0, 10), (10, 10)] from rfl, lineTotal_right_angle]
    rfl
  · have h1 := (hval 1 (by norm_num)).1
    rw [h1, sumForParent_eq _ 1 (by norm_num)]
    rfl

/-- C5: a line whose consecutive points are all identical — in particular a
single-point line, or any line of a collection with fewer than two total
vertices — contributes a turn sum of 0.0, and (for unique identifiers) the
aggregator succeeds with that row of the result holding 0.0: degenerate
geometry takes an early exit or an empty mask, never an error. -/
theorem C5_degenerate_zero (gdf : GeoDataFrame) (j : ℕ)
    (hj : j < gdf.geoms.length)
    (hdeg : (gdf.geoms.map List.length).sum < 2 ∨
      (gdf.geoms.getD j []).length ≤ 1 ∨
      ∀ pq ∈ consecutivePairs (gdf.geoms.getD j []), pq.1 = pq.2) :
    sumForParent (turnsWithParent gdf.geoms) j = 0 ∧
    (gdf.index.Nodup →
      ∃ out, total_bearing_change_planar gdf = Except.ok out ∧
        out[j]? = some (gdf.index.getD j 0, 0)) := by
  have hall : ∀ pq ∈ consecutivePairs (gdf.geoms.getD j []), pq.1 = pq.2 := by
    rcases hdeg with h | h | h
    · have hmem : (gdf.geoms.getD j []).length ∈ gdf.geoms.map List.length := by
        rw [List.getD_eq_getElem _ _ hj]
        exact List.mem_map.mpr ⟨_, List.getElem_mem _, rfl⟩
      have hle := List.single_le_sum (fun (x : ℕ) _ => Nat.zero_le x) _ hmem
      rw [consecutivePairs_of_short _ (by omega)]
      intro pq hpq
      simp at hpq
    · rw [consecutivePairs_of_short _ h]
      intro pq hpq
      simp at hpq
    · exact h
  have hlp : linePairs (gdf.geoms.getD j []) = [] := by
    rw [linePairs]
    apply filterMap_if_none
    intro pq hpq
    rw [hall pq hpq]
    push_neg
    exact ⟨sub_self _, sub_self _⟩
  have htot : lineTotal (gdf.geoms.getD j []) = 0 := by
    rw [lineTotal, lineTurns, hlp]
    rfl
  refine ⟨?_, fun hnd => ?_⟩
  · rw [sumForParent_eq gdf.geoms j hj, htot]
  · refine ⟨assembled gdf, total_eq_ok gdf hnd, ?_⟩
    rw [assembled_getElem? gdf hnd j (by rw [gdf.hlen]; exact hj),
      sumForParent_eq gdf.geoms j hj, htot]

/-- C5 witness: a two-row collection whose second line repeats one point
three times; its turn sum is 0 and its result row is `(5, 0)`. -/
theorem C5_degenerate_witness :
    (1 : ℕ) < 2 ∧
    (∀ pq ∈ consecutivePairs
      (([[((1 : ℝ), (1 : ℝ))], [(2, 2), (2, 2), (2, 2)]] :
        List (List Point)).getD 1 []), pq.1 = pq.2) ∧
    sumForParent (turnsWithParent
      ([[((1 : ℝ), (1 : ℝ))], [(2, 2), (2, 2), (2, 2)]] : List (List Point))) 1 = 0 ∧
    (∃ out, total_bearing_change_planar
        ⟨[4, 5], [[(1, 1)], [(2, 2), (2, 2), (2, 2)]], rfl⟩ = Except.ok out ∧
      out[1]? = some (5, 0)) := by
  have hdeg : ∀ pq ∈ consecutivePairs
      (([[((1 : ℝ), (1 : ℝ))], [(2, 2), (2, 2), (2, 2)]] :
        List (List Point)).getD 1 []), pq.1 = pq.2 := by
    intro pq hpq
    rw [show consecutivePairs
        (([[((1 : ℝ), (1 : ℝ))], [(2, 2), (2, 2), (2, 2)]] :
          List (List Point)).getD 1 []) =
        [(((2 : ℝ), (2 : ℝ)), ((2 : ℝ), (2 : ℝ))),
         (((2 : ℝ), (2 : ℝ)), ((2 : ℝ), (2 : ℝ)))] from rfl] at hpq
    simp only [List.mem_cons, List.not_mem_nil, or_false] at hpq
    rcases hpq with h | h <;> rw [h]
  obtain ⟨hsum, hser⟩ := C5_degenerate_zero
    ⟨[4, 5], [[(1, 1)], [(2, 2), (2, 2), (2, 2)]], rfl⟩ 1 (by norm_num)
    (Or.inr (Or.inr hdeg))
  exact ⟨by norm_num, hdeg, hsum, hser (by decide)⟩

/-- C6: the single 3-point line `(0,0) → (0,10) → (10,10)` — due North then
due East under the `(degrees (atan2 dx dy) + 360) % 360` bearing — has total
turn 90.0. -/
theorem C6_right_angle_total :
    total_bearing_change_planar ⟨[7], [[(0, 0), (0, 10), (10, 10)]], rfl⟩ =
      Except.ok [(7, 90)] := by
  rw [total_single, lineTotal_right_angle]

/-- C10: one or more repeated vertices (zero-length segments) between two
non-degenerate segments do not break the turn chain: after dropping them the
two surviving segments are adjacent and their turn is the line's total. -/
theorem C10_zero_length_bridged (a b c : Point) (k id : ℕ)
    (_hk : 1 ≤ k) (hab : a ≠ b) (hbc : b ≠ c) :
    total_bearing_change_planar
      ⟨[id], [a :: b :: (List.replicate k b ++ [c])], rfl⟩ =
      Except.ok [(id, turn (bearing (b.1 - a.1) (b.2 - a.2))
                 (bearing (c.1 - b.1) (c.2 - b.2)))] := by
  rw [total_single]
  have hpairs : consecutivePairs (b :: (List.replicate k b ++ [c])) =
      List.replicate k (b, b) ++ [(b, c)] := by
    clear _hk
    induction k with
    | zero => rfl
    | succ k ih =>
      rw [show (b :: (List.replicate (k + 1) b ++ [c])) =
          b :: b :: (List.replicate k b ++ [c]) by
        rw [List.replicate_succ, List.cons_append]]
      rw [show consecutivePairs (b :: b :: (List.replicate k b ++ [c])) =
          (b, b) :: consecutivePairs (b :: (List.replicate k b ++ [c])) from rfl]
      rw [ih, List.replicate_succ, List.cons_append]
  have hcond_ab : b.1 - a.1 ≠ 0 ∨ b.2 - a.2 ≠ 0 := by
    by_contra hcon
    push_neg at hcon
    apply hab
    rw [Prod.ext_iff]
    constructor
    · linarith [hcon.1]
    · linarith [hcon.2]
  have hcond_bc : c.1 - b.1 ≠ 0 ∨ c.2 - b.2 ≠ 0 := by
    by_contra hcon
    push_neg at hcon
    apply hbc
    rw [Prod.ext_iff]
    constructor
    · linarith [hcon.1]
    · linarith [hcon.2]
  have hlp : linePairs (a :: b :: (List.replicate k b ++ [c])) =
      [(a, b), (b, c)] := by
    rw [linePairs,
      show consecutivePairs (a :: b :: (List.replicate k b ++ [c])) =
        (a, b) :: consecutivePairs (b :: (List.replicate k b ++ [c])) from rfl,
      hpairs, filterMap_if_cons_pos _ _ _ _ (by exact hcond_ab),
      List.filterMap_append]
    rw [filterMap_if_none _ _ _ (fun pq hpq => ?_),
      filterMap_if_cons_pos _ _ _ _ (by exact hcond_bc)]
    · rfl
    · rw [List.eq_of_mem_replicate hpq]
      push_neg
      exact ⟨sub_self _, sub_self _⟩
  rw [show lineTotal (a :: b :: (List.replicate k b ++ [c])) =
      turn (bearing (b.1 - a.1) (b.2 - a.2))
           (bearing (c.1 - b.1) (c.2 - b.2)) from ?_]
  rw [lineTotal, lineTurns, hlp,
    show consecutivePairs [(a, b), (b, c)] = [((a, b), (b, c))] from rfl]
  rw [List.map_cons, List.map_nil, List.sum_cons, List.sum_nil, add_zero]
  rfl

/-- C10 witness: `(0,0) → (0,1) → (0,1) → (1,1)` has one repeated vertex and
total turn 90. -/
theorem C10_zero_length_witness :
    (1 : ℕ) ≤ 1 ∧ ((0, 0) : Point) ≠ (0, 1) ∧ ((0, 1) : Point) ≠ (1, 1) ∧
    total_bearing_change_planar
      ⟨[3], [(0, 0) :: (0, 1) ::
        (List.replicate 1 (((0 : ℝ), (1 : ℝ))) ++ [(1, 1)])], rfl⟩ =
      Except.ok [(3, 90)] := by
  have hab : ((0, 0) : Point) ≠ (0, 1) := by
    simp [Prod.ext_iff]
  have hbc : ((0, 1) : Point) ≠ (1, 1) := by
    simp [Prod.ext_iff]
  refine ⟨le_refl 1, hab, hbc, ?_⟩
  rw [C10_zero_length_bridged (0, 0) (0, 1) (1, 1) 1 3 (le_refl 1) hab hbc]
  rw [show bearing (((0 : ℝ), (1 : ℝ)).1 - ((0 : ℝ), (0 : ℝ)).1)
      (((0 : ℝ), (1 : ℝ)).2 - ((0 : ℝ), (0 : ℝ)).2) = bearing 0 1 by norm_num]
  rw [show bearing (((1 : ℝ), (1 : ℝ)).1 - ((0 : ℝ), (1 : ℝ)).1)
      (((1 : ℝ), (1 : ℝ)).2 - ((0 : ℝ), (1 : ℝ)).2) = bearing 1 0 by norm_num]
  rw [bearing_north 1 (by norm_num), bearing_east 1 (by norm_num),
    turn_north_east]

end

end Geospatial
